import Mathlib

/-!
Shallow embedding of the caching subsystem of the repository
(`backend/simple_cache.py` and `backend/cache.py`), together with proofs
of the specification claims about it.

Conventions:
* Python values that flow through the cache are modelled by `JVal`
  (JSON-serializable data); Python's `None` is `JVal.jnull`.
* `time.time()` results are modelled as integers, passed explicitly to
  every operation that reads the clock.
* Python dicts are modelled as association lists with distinct keys
  (a Python dict can never hold a duplicate key).
* The in-memory manager's `try/except` blocks never fire in the model:
  every modelled operation is total, which matches the source's behavior
  of raising no exception on any of the inputs considered here.
-/

/-! ### Lexicographic string comparison (Python's `<` on `str`)

Python compares strings lexicographically by Unicode code point; this is
the order `sorted` and `json.dumps(..., sort_keys=True)` use.  We define
it directly over the character lists so that it reduces in the kernel. -/

/-- Code-point comparison of characters. -/
def charLt (c d : Char) : Bool := decide (c.toNat < d.toNat)

/-- Lexicographic "less than" on character lists, by code point. -/
def charsLt : List Char → List Char → Bool
  | [], [] => false
  | [], _ :: _ => true
  | _ :: _, [] => false
  | c :: cs, d :: ds =>
    if charLt c d then true
    else if charLt d c then false
    else charsLt cs ds

/-- Python's `<` on strings. -/
def strLt (a b : String) : Bool := charsLt a.data b.data

/-- Python's `<=` on strings (total order: `a <= b` iff not `b < a`). -/
def strLe (a b : String) : Bool := !(strLt b a)

/-! ### JSON values and canonical serialization -/

/-- JSON-like values: the payloads stored in the cache and the parameter
sets fed to cache-key derivation.  Python's `None` is `jnull`. -/
inductive JVal where
  | jnull : JVal
  | jbool : Bool → JVal
  | jnum : Int → JVal
  | jstr : String → JVal
  | jarr : List JVal → JVal
  | jobj : List (String × JVal) → JVal

/-- Escape of a single character inside a JSON string literal, as
`json.dumps` produces it (quote, backslash and the common control
characters; further control-character and non-ASCII escaping is elided —
it plays no role in any claim). -/
def jsonEscapeChar (c : Char) : String :=
  if c = '"' then "\\\""
  else if c = '\\' then "\\\\"
  else if c = '\n' then "\\n"
  else if c = '\t' then "\\t"
  else if c = '\r' then "\\r"
  else String.singleton c

/-- A JSON string literal: `"..."` with characters escaped. -/
def jsonQuote (s : String) : String :=
  "\"" ++ String.join (s.data.map jsonEscapeChar) ++ "\""

/-- Ordering of rendered object fields by their key, mirroring
`sort_keys=True` (Python compares the key strings). -/
def keyLE (a b : String × String) : Prop := strLe a.1 b.1 = true

instance : DecidableRel keyLE := fun a b =>
  inferInstanceAs (Decidable (strLe a.1 b.1 = true))

/-- Sort the (key, rendered value) pairs of an object by key. -/
def sortByKey (l : List (String × String)) : List (String × String) :=
  List.insertionSort keyLE l

mutual
/-- Python's `json.dumps(v, sort_keys=True)` with the default separators
`", "` and `": "`.  Python sorts the keys of every mapping (recursively)
before emitting; here each field's value is rendered first and the
(key, rendered-string) pairs are then sorted by key — the output is the
same string because the comparison looks at keys only (and a Python dict
never holds two equal keys, so stability is irrelevant). -/
def dumpsSorted : JVal → String
  | .jnull => "null"
  | .jbool true => "true"
  | .jbool false => "false"
  | .jnum n => toString n
  | .jstr s => jsonQuote s
  | .jarr xs => "[" ++ String.intercalate ", " (dumpsElems xs) ++ "]"
  | .jobj fs => "\x7b" ++
      String.intercalate ", "
        ((sortByKey (dumpsPairs fs)).map (fun p => jsonQuote p.1 ++ ": " ++ p.2)) ++ "\x7d"

/-- Renderings of the elements of a JSON array, in order. -/
def dumpsElems : List JVal → List String
  | [] => []
  | x :: xs => dumpsSorted x :: dumpsElems xs

/-- The (key, rendered value) pairs of a JSON object, in construction order. -/
def dumpsPairs : List (String × JVal) → List (String × String)
  | [] => []
  | (k, v) :: fs => (k, dumpsSorted v) :: dumpsPairs fs
end

/-- The source's `_generate_key(prefix, **kwargs)` (identical in both backends):
serialize the keyword arguments with `json.dumps(kwargs, sort_keys=True)`,
digest the serialization (`hashlib.md5(key_data.encode()).hexdigest()` in
the source; the digest is a fixed pure function of the serialized string,
abstracted here as the parameter `digest`), and return
`"{prefix}:{key_hash}"`. -/
def generate_key (digest : String → String) (pre : String)
    (kwargs : List (String × JVal)) : String :=
  pre ++ ":" ++ digest (dumpsSorted (.jobj kwargs))

/-! ### Equality and structural equivalence of `JVal` -/

/-- First binding of a key in an association list (Python dict lookup). -/
def lookupStr (k : String) : List (String × α) → Option α
  | [] => Option.none
  | p :: ps => if p.1 = k then some p.2 else lookupStr k ps

mutual
/-- Decidable equality worker for `JVal` (the `deriving` handler does not
support this nested inductive). -/
def jvalBeq : JVal → JVal → Bool
  | .jnull, .jnull => true
  | .jbool a, .jbool b => a == b
  | .jnum a, .jnum b => a == b
  | .jstr a, .jstr b => a == b
  | .jarr xs, .jarr ys => jvalBeqList xs ys
  | .jobj fs, .jobj gs => jvalBeqFields fs gs
  | _, _ => false

/-- Elementwise equality of JSON arrays. -/
def jvalBeqList : List JVal → List JVal → Bool
  | [], [] => true
  | x :: xs, y :: ys => jvalBeq x y && jvalBeqList xs ys
  | _, _ => false

/-- Elementwise equality of object field lists (order-sensitive). -/
def jvalBeqFields : List (String × JVal) → List (String × JVal) → Bool
  | [], [] => true
  | (k, v) :: fs, (k', w) :: gs => k == k' && jvalBeq v w && jvalBeqFields fs gs
  | _, _ => false
end

/-- Strong induction principle for `JVal` (the nested inductive's
generated recursor is awkward to use directly). -/
theorem JVal.indOn {P : JVal → Prop}
    (hnull : P .jnull) (hbool : ∀ b, P (.jbool b)) (hnum : ∀ n, P (.jnum n))
    (hstr : ∀ s, P (.jstr s))
    (harr : ∀ xs, (∀ x ∈ xs, P x) → P (.jarr xs))
    (hobj : ∀ fs, (∀ p ∈ fs, P p.2) → P (.jobj fs)) : ∀ v, P v
  | .jnull => hnull
  | .jbool b => hbool b
  | .jnum n => hnum n
  | .jstr s => hstr s
  | .jarr xs => harr xs (fun x hx =>
      JVal.indOn hnull hbool hnum hstr harr hobj x)
  | .jobj fs => hobj fs (fun p hp =>
      JVal.indOn hnull hbool hnum hstr harr hobj p.2)
decreasing_by
  · have := List.sizeOf_lt_of_mem hx
    simp only [JVal.jarr.sizeOf_spec]
    omega
  · have h1 := List.sizeOf_lt_of_mem hp
    have h2 : sizeOf p.2 < sizeOf p := by
      obtain ⟨k, v⟩ := p
      simp
    simp only [JVal.jobj.sizeOf_spec]
    omega

/-- Reflexivity worker for `jvalBeqList`. -/
theorem jvalBeqList_refl (xs : List JVal) (ih : ∀ x ∈ xs, jvalBeq x x = true) :
    jvalBeqList xs xs = true := by
  induction xs with
  | nil => rfl
  | cons x xs ihl =>
    simp only [jvalBeqList, Bool.and_eq_true]
    exact ⟨ih x (List.mem_cons_self x xs),
      ihl (fun y hy => ih y (List.mem_cons_of_mem x hy))⟩

/-- Reflexivity worker for `jvalBeqFields`. -/
theorem jvalBeqFields_refl (fs : List (String × JVal))
    (ih : ∀ p ∈ fs, jvalBeq p.2 p.2 = true) :
    jvalBeqFields fs fs = true := by
  induction fs with
  | nil => rfl
  | cons p fs ihl =>
    obtain ⟨k, v⟩ := p
    simp only [jvalBeqFields, Bool.and_eq_true, beq_self_eq_true, true_and]
    exact ⟨ih ⟨k, v⟩ (List.mem_cons_self _ fs),
      ihl (fun q hq => ih q (List.mem_cons_of_mem _ hq))⟩

/-- The test `jvalBeq` is reflexive. -/
theorem jvalBeq_refl : ∀ v, jvalBeq v v = true := by
  intro v
  induction v using JVal.indOn with
  | hnull => rfl
  | hbool b => simp [jvalBeq]
  | hnum n => simp [jvalBeq]
  | hstr s => simp [jvalBeq]
  | harr xs ih => simpa [jvalBeq] using jvalBeqList_refl xs ih
  | hobj fs ih => simpa [jvalBeq] using jvalBeqFields_refl fs ih

/-- Soundness worker for `jvalBeqList`. -/
theorem jvalBeqList_eq (xs : List JVal)
    (ih : ∀ x ∈ xs, ∀ w, jvalBeq x w = true → x = w) :
    ∀ ys, jvalBeqList xs ys = true → xs = ys := by
  induction xs with
  | nil => intro ys h; cases ys with
    | nil => rfl
    | cons y ys => simp [jvalBeqList] at h
  | cons x xs ihl =>
    intro ys h
    cases ys with
    | nil => simp [jvalBeqList] at h
    | cons y ys =>
      simp only [jvalBeqList, Bool.and_eq_true] at h
      have hx := ih x (List.mem_cons_self x xs) y h.1
      have hxs := ihl (fun z hz => ih z (List.mem_cons_of_mem x hz)) ys h.2
      rw [hx, hxs]

/-- Soundness worker for `jvalBeqFields`. -/
theorem jvalBeqFields_eq (fs : List (String × JVal))
    (ih : ∀ p ∈ fs, ∀ w, jvalBeq p.2 w = true → p.2 = w) :
    ∀ gs, jvalBeqFields fs gs = true → fs = gs := by
  induction fs with
  | nil => intro gs h; cases gs with
    | nil => rfl
    | cons g gs => simp [jvalBeqFields] at h
  | cons p fs ihl =>
    intro gs h
    cases gs with
    | nil => obtain ⟨k, v⟩ := p; simp [jvalBeqFields] at h
    | cons q gs =>
      obtain ⟨k, v⟩ := p
      obtain ⟨k', w⟩ := q
      simp only [jvalBeqFields, Bool.and_eq_true, beq_iff_eq] at h
      have hv := ih ⟨k, v⟩ (List.mem_cons_self _ fs) w h.1.2
      have hfs := ihl (fun r hr => ih r (List.mem_cons_of_mem _ hr)) gs h.2
      simp only at hv
      rw [h.1.1, hv, hfs]

/-- The test `jvalBeq` is sound for equality. -/
theorem jvalBeq_eq : ∀ v w, jvalBeq v w = true → v = w := by
  intro v
  induction v using JVal.indOn with
  | hnull => intro w h; cases w <;> simp_all [jvalBeq]
  | hbool b => intro w h; cases w <;> simp_all [jvalBeq]
  | hnum n => intro w h; cases w <;> simp_all [jvalBeq]
  | hstr s => intro w h; cases w <;> simp_all [jvalBeq]
  | harr xs ih =>
    intro w h
    cases w <;> try simp [jvalBeq] at h
    case jarr ys => rw [jvalBeqList_eq xs ih ys (by simpa [jvalBeq] using h)]
  | hobj fs ih =>
    intro w h
    cases w <;> try simp [jvalBeq] at h
    case jobj gs => rw [jvalBeqFields_eq fs ih gs (by simpa [jvalBeq] using h)]

instance : DecidableEq JVal := fun a b =>
  if h : jvalBeq a b = true then isTrue (jvalBeq_eq a b h)
  else isFalse (fun he => h (he ▸ jvalBeq_refl a))

mutual
/-- Two parameter sets "contain the same key-value pairs, possibly
constructed in different orders, including in nested mappings": equal
scalars, elementwise-equivalent arrays, and objects of the same size in
which every field of the left object is matched, by key, by an equivalent
field of the right object. -/
def jequiv : JVal → JVal → Bool
  | .jnull, .jnull => true
  | .jbool a, .jbool b => a == b
  | .jnum a, .jnum b => a == b
  | .jstr a, .jstr b => a == b
  | .jarr xs, .jarr ys => jequivList xs ys
  | .jobj fs, .jobj gs => fs.length == gs.length && jequivFields fs gs
  | _, _ => false

/-- Elementwise equivalence of JSON arrays (arrays keep their order). -/
def jequivList : List JVal → List JVal → Bool
  | [], [] => true
  | x :: xs, y :: ys => jequiv x y && jequivList xs ys
  | _, _ => false

/-- Every field of the first list is matched by key in the second. -/
def jequivFields : List (String × JVal) → List (String × JVal) → Bool
  | [], _ => true
  | (k, v) :: fs, gs =>
    (match lookupStr k gs with
     | some w => jequiv v w
     | Option.none => false) && jequivFields fs gs
end

/-- Keys of an association list are pairwise distinct. -/
def keysDistinct : List String → Bool
  | [] => true
  | k :: ks => !(ks.contains k) && keysDistinct ks

mutual
/-- Well-formedness of a `JVal` as a Python value: every mapping in it
has pairwise-distinct keys (a Python dict cannot hold duplicates). -/
def wfKeys : JVal → Bool
  | .jarr xs => wfKeysList xs
  | .jobj fs => keysDistinct (fs.map Prod.fst) && wfKeysFields fs
  | _ => true

/-- Well-formedness of every element of an array. -/
def wfKeysList : List JVal → Bool
  | [] => true
  | x :: xs => wfKeys x && wfKeysList xs

/-- Well-formedness of every field value of an object. -/
def wfKeysFields : List (String × JVal) → Bool
  | [] => true
  | p :: fs => wfKeys p.2 && wfKeysFields fs
end

/-! ### The in-memory backend: `SimpleCacheManager` (`simple_cache.py`) -/

/-- One cache entry, as stored by `SimpleCacheManager.set`:
`{'data': value, 'expires_at': current_time + expire, 'created_at': current_time}`. -/
structure Entry where
  data : JVal
  expires_at : Int
  created_at : Int
deriving DecidableEq

/-- State of a `SimpleCacheManager`: the `self.cache` dict and the
`self.connected` flag. -/
structure CacheSt where
  cache : List (String × Entry)
  connected : Bool
deriving DecidableEq

/-- Python dict read: `self.cache[key]` guarded by `key in self.cache`. -/
def dictGet (m : List (String × Entry)) (k : String) : Option Entry :=
  lookupStr k m

/-- Python dict write `self.cache[key] = e`: overwrite the binding if the
key is present, otherwise append a new binding. -/
def dictSet (m : List (String × Entry)) (k : String) (e : Entry) :
    List (String × Entry) :=
  if m.any (fun p => p.1 = k) then
    m.map (fun p => if p.1 = k then (k, e) else p)
  else m ++ [(k, e)]

/-- Python `del self.cache[key]`. -/
def dictDel (m : List (String × Entry)) (k : String) : List (String × Entry) :=
  m.filter (fun p => p.1 ≠ k)

/-- Python's `key.startswith(pre)` on strings. -/
def strStartsWith (key pre : String) : Bool :=
  pre.data.isPrefixOf key.data

/-- Python's `pattern.replace("*", "")`. -/
def stripStar (pat : String) : String :=
  String.mk (pat.data.filter (fun c => c ≠ '*'))

namespace SimpleCacheManager

/-- Models `SimpleCacheManager.get`: `None` when disconnected or the key is
absent; if the entry is present but `current_time > expires_at`, delete it
and return `None` (lazy eviction); otherwise return its `data`. -/
def get (st : CacheSt) (key : String) (now : Int) : JVal × CacheSt :=
  if !st.connected then (.jnull, st)
  else
    match dictGet st.cache key with
    | some e =>
      if now > e.expires_at then (.jnull, { st with cache := dictDel st.cache key })
      else (e.data, st)
    | Option.none => (.jnull, st)

/-- Models `SimpleCacheManager.set`: store
`{'data': value, 'expires_at': now + expire, 'created_at': now}` and
return `True`; return `False` when disconnected. -/
def set (st : CacheSt) (key : String) (value : JVal) (expire : Int) (now : Int) :
    Bool × CacheSt :=
  if !st.connected then (false, st)
  else (true, { st with cache := dictSet st.cache key ⟨value, now + expire, now⟩ })

/-- Models `SimpleCacheManager.delete`: delete the key if present, return `True`;
return `False` when disconnected. -/
def delete (st : CacheSt) (key : String) : Bool × CacheSt :=
  if !st.connected then (false, st)
  else (true, { st with cache := dictDel st.cache key })

/-- Models `SimpleCacheManager.clear_pattern`: `False` when disconnected; for the
universal pattern `"*"` clear everything; otherwise drop the `"*"`
characters from the pattern and delete every key that starts with the
result. -/
def clear_pattern (st : CacheSt) (pat : String) : Bool × CacheSt :=
  if !st.connected then (false, st)
  else if pat = "*" then (true, { st with cache := [] })
  else
    (true, { st with cache :=
      st.cache.filter (fun p => !(strStartsWith p.1 (stripStar pat))) })

/-- Models `SimpleCacheManager._cleanup_expired`: remove every entry with
`current_time > expires_at`. -/
def cleanup_expired (st : CacheSt) (now : Int) : CacheSt :=
  { st with cache := st.cache.filter (fun p => !(now > p.2.expires_at)) }

end SimpleCacheManager

/-- The fields of the `get_cache_stats` report that the claims are about
(`status` and `keys`; the memory estimate and the constant fields are
elided). -/
structure CacheStats where
  status : String
  keys : Nat
deriving DecidableEq

/-- Models `get_cache_stats` for the in-memory backend: when disconnected report
`{"status": "disconnected", "keys": 0}`; otherwise run
`_cleanup_expired()` first and report the number of remaining keys. -/
def get_cache_stats (st : CacheSt) (now : Int) : CacheStats × CacheSt :=
  if !st.connected then ({ status := "disconnected", keys := 0 }, st)
  else
    let st' := SimpleCacheManager.cleanup_expired st now
    ({ status := "connected", keys := st'.cache.length }, st')

/-! ### The remote backend: `CacheManager` (`cache.py`)

Only the connection-state guards are relevant to the claims.  The network
interaction that follows a successful guard (the `aioredis` calls plus
JSON (de)serialization) is abstracted as an explicit function argument:
when the guard fails, the source returns before any network call, so the
result cannot depend on it. -/

/-- Connection state of a `CacheManager`: `self.connected` and whether
`self.redis` is a live handle (`self.redis is not None`). -/
structure RedisSt where
  connected : Bool
  hasRedis : Bool
deriving DecidableEq

namespace CacheManager

/-- Models `CacheManager.get`: `None` when disconnected or without a handle;
otherwise the (abstracted) network read `netGet`. -/
def get (m : RedisSt) (netGet : String → JVal) (key : String) : JVal :=
  if !m.connected || !m.hasRedis then .jnull else netGet key

/-- Models `CacheManager.set`: `False` when disconnected or without a handle;
otherwise the (abstracted) network write `netSet`. -/
def set (m : RedisSt) (netSet : String → JVal → Int → Bool) (key : String)
    (value : JVal) (expire : Int) : Bool :=
  if !m.connected || !m.hasRedis then false else netSet key value expire

/-- Models `CacheManager.delete`: `False` when disconnected or without a handle. -/
def delete (m : RedisSt) (netDel : String → Bool) (key : String) : Bool :=
  if !m.connected || !m.hasRedis then false else netDel key

/-- Models `CacheManager.clear_pattern`: `False` when disconnected or without a
handle. -/
def clear_pattern (m : RedisSt) (netClear : String → Bool) (pat : String) : Bool :=
  if !m.connected || !m.hasRedis then false else netClear pat

end CacheManager

/-! ### The memoization wrapper: `cache_response`

`cache_response(prefix, expire)` wraps an async producing operation; the
wrapped call derives a key from the call arguments via
`_generate_key(prefix, args=str(args), kwargs=kwargs)`, consults the
cache, and on a `None` answer executes the operation and stores its
result.  The producing operation is modelled as a state transformer
`f : σ → JVal × σ` so that "f executed" is visible as a change of its
state; `tGet` and `tSet` are the two `time.time()` readings (inside
`cache_manager.get` and `cache_manager.set`).

`wrapperKey` is the derived key
`_generate_key(prefix, args=str(args), kwargs=kwargs)`. -/
def wrapperKey (digest : String → String) (pre : String) (argsStr : String)
    (kwargs : List (String × JVal)) : String :=
  generate_key digest pre [("args", .jstr argsStr), ("kwargs", .jobj kwargs)]

/-- The body of the wrapped call. -/
def cache_response_call (pre : String) (expire : Int) (digest : String → String)
    (f : σ → JVal × σ) (argsStr : String) (kwargs : List (String × JVal))
    (st : CacheSt) (s : σ) (tGet tSet : Int) : JVal × CacheSt × σ :=
  let cache_key := wrapperKey digest pre argsStr kwargs
  let res := SimpleCacheManager.get st cache_key tGet
  if jvalBeq res.1 .jnull = false then (res.1, res.2, s)
  else
    let r := f s
    let st2 := SimpleCacheManager.set res.2 cache_key r.1 expire tSet
    (r.1, st2.2, r.2)

/-! ### Order properties of the string comparison -/

/-- The comparison `charLt` is asymmetric. -/
theorem charLt_asymm {c d : Char} (h : charLt c d = true) : charLt d c = false := by
  simp only [charLt, decide_eq_true_eq] at h
  simp only [charLt, decide_eq_false_iff_not]
  omega

/-- Characters that compare neither way are equal. -/
theorem charEq_of_not_lt {c d : Char} (h1 : charLt c d = false)
    (h2 : charLt d c = false) : c = d := by
  simp only [charLt, decide_eq_false_iff_not] at h1 h2
  have : c.toNat = d.toNat := by omega
  exact Char.eq_of_val_eq (UInt32.toNat.inj this)

/-- The comparison `charsLt` is asymmetric. -/
theorem charsLt_asymm : ∀ {a b : List Char}, charsLt a b = true → charsLt b a = false
  | [], [], h => by simp [charsLt] at h
  | [], _ :: _, _ => by simp [charsLt]
  | _ :: _, [], h => by simp [charsLt] at h
  | c :: cs, d :: ds, h => by
    simp only [charsLt] at h ⊢
    by_cases h1 : charLt c d = true
    · simp [h1, charLt_asymm h1]
    · simp only [Bool.not_eq_true] at h1
      simp only [h1, if_false] at h
      by_cases h2 : charLt d c = true
      · simp [h2] at h
      · simp only [Bool.not_eq_true] at h2
        simp only [h2, if_false] at h ⊢
        simp [h1, charsLt_asymm h]

/-- Character lists that compare neither way are equal. -/
theorem charsEq_of_not_lt : ∀ {a b : List Char},
    charsLt a b = false → charsLt b a = false → a = b
  | [], [], _, _ => rfl
  | [], _ :: _, h, _ => by simp [charsLt] at h
  | _ :: _, [], _, h => by simp [charsLt] at h
  | c :: cs, d :: ds, h1, h2 => by
    simp only [charsLt] at h1 h2
    by_cases hcd : charLt c d = true
    · simp [hcd] at h1
    · simp only [Bool.not_eq_true] at hcd
      by_cases hdc : charLt d c = true
      · simp [hdc] at h2
      · simp only [Bool.not_eq_true] at hdc
        simp only [hcd, hdc, if_false] at h1 h2
        rw [charEq_of_not_lt hcd hdc, charsEq_of_not_lt h1 h2]

/-- The comparison `charsLt` is transitive. -/
theorem charsLt_trans : ∀ {a b c : List Char},
    charsLt a b = true → charsLt b c = true → charsLt a c = true
  | [], [], _, h, _ => by simp [charsLt] at h
  | [], _ :: _, [], _, h => by simp [charsLt] at h
  | [], _ :: _, _ :: _, _, _ => by simp [charsLt]
  | _ :: _, [], _, h, _ => by simp [charsLt] at h
  | _ :: _, _ :: _, [], _, h => by simp [charsLt] at h
  | a :: as, b :: bs, c :: cs, h1, h2 => by
    simp only [charsLt] at h1 h2 ⊢
    by_cases hab : charLt a b = true
    case pos =>
      by_cases hbc : charLt b c = true
      case pos =>
        have hac : charLt a c = true := by
          simp only [charLt, decide_eq_true_eq] at hab hbc ⊢
          omega
        simp [hac]
      case neg =>
        simp only [Bool.not_eq_true] at hbc
        by_cases hcb : charLt c b = true
        case pos => simp [hbc, hcb] at h2
        case neg =>
          simp only [Bool.not_eq_true] at hcb
          have hbceq : b = c := charEq_of_not_lt hbc hcb
          subst hbceq
          simp [hab]
    case neg =>
      simp only [Bool.not_eq_true] at hab
      by_cases hba : charLt b a = true
      case pos => simp [hab, hba] at h1
      case neg =>
        simp only [Bool.not_eq_true] at hba
        have habeq : a = b := charEq_of_not_lt hab hba
        subst habeq
        simp only [hab, if_false] at h1
        by_cases hac : charLt a c = true
        case pos => simp [hac]
        case neg =>
          simp only [Bool.not_eq_true] at hac
          by_cases hca : charLt c a = true
          case pos => simp [hac, hca] at h2
          case neg =>
            simp only [Bool.not_eq_true] at hca
            simp only [hac, hca, if_false] at h2 ⊢
            exact charsLt_trans h1 h2

/-- Strings that compare neither way are equal. -/
theorem strEq_of_not_lt {a b : String} (h1 : strLt a b = false)
    (h2 : strLt b a = false) : a = b := by
  cases a
  cases b
  exact congrArg String.mk (charsEq_of_not_lt h1 h2)

/-- The order `strLe` is total. -/
theorem strLe_total (a b : String) : strLe a b = true ∨ strLe b a = true := by
  simp only [strLe, Bool.not_eq_true']
  by_cases h : strLt b a = true
  · right
    exact charsLt_asymm h
  · left
    simpa using h

/-- The order `strLe` is transitive. -/
theorem strLe_trans {a b c : String} (h1 : strLe a b = true)
    (h2 : strLe b c = true) : strLe a c = true := by
  simp only [strLe, Bool.not_eq_true'] at h1 h2 ⊢
  by_cases h : strLt c a = true
  case pos =>
    by_cases hab : strLt a b = true
    case pos =>
      have hcb : charsLt c.data b.data = true := charsLt_trans h hab
      simp only [strLt] at h2
      rw [h2] at hcb
      cases hcb
    case neg =>
      have heq : a = b := strEq_of_not_lt (by simpa using hab) h1
      subst heq
      rw [h2] at h
      cases h
  case neg =>
    simpa using h

instance : IsTotal (String × String) keyLE :=
  ⟨fun a b => by
    rcases strLe_total a.1 b.1 with h | h
    · exact Or.inl h
    · exact Or.inr h⟩

instance : IsTrans (String × String) keyLE :=
  ⟨fun _ _ _ h h' => strLe_trans h h'⟩

instance : IsTotal (String × String) keyLE :=
  ⟨fun a b => strLe_total a.1 b.1⟩

instance : IsTrans (String × String) keyLE :=
  ⟨fun _ _ _ h h' => strLe_trans h h'⟩

/-- Strict key comparison, used to exploit key distinctness. -/
def keyLT (a b : String × String) : Prop := strLt a.1 b.1 = true

instance : IsAntisymm (String × String) keyLT :=
  ⟨fun a b h h' => by
    have hf := charsLt_asymm h
    simp only [keyLT, strLt] at h'
    rw [h'] at hf
    cases hf⟩

/-- A `keyLE`-sorted list with pairwise-distinct keys is `keyLT`-sorted. -/
theorem sorted_keyLT_of_sorted_keyLE {l : List (String × String)}
    (hs : List.Sorted keyLE l) (hn : (l.map Prod.fst).Nodup) :
    List.Sorted keyLT l := by
  have hp : l.Pairwise (fun a b : String × String => a.1 ≠ b.1) :=
    List.pairwise_map.mp hn
  refine (hs.and hp).imp ?_
  rintro a b ⟨hle, hne⟩
  simp only [keyLE, strLe, Bool.not_eq_true'] at hle
  simp only [keyLT]
  by_cases h : strLt a.1 b.1 = true
  · exact h
  · exact absurd (strEq_of_not_lt (by simpa using h) hle) hne

/-- Permutations of a field list with distinct keys sort identically:
there is exactly one key-sorted arrangement. -/
theorem sortByKey_eq_of_perm {l₁ l₂ : List (String × String)}
    (hp : l₁.Perm l₂) (hn : (l₁.map Prod.fst).Nodup) :
    sortByKey l₁ = sortByKey l₂ := by
  have p1 : (sortByKey l₁).Perm (sortByKey l₂) :=
    ((List.perm_insertionSort keyLE l₁).trans hp).trans
      (List.perm_insertionSort keyLE l₂).symm
  have hn' : (l₂.map Prod.fst).Nodup := ((hp.map Prod.fst).nodup_iff).mp hn
  have hn1 : ((sortByKey l₁).map Prod.fst).Nodup :=
    (((List.perm_insertionSort keyLE l₁).map Prod.fst).nodup_iff).mpr hn
  have hn2 : ((sortByKey l₂).map Prod.fst).Nodup :=
    (((List.perm_insertionSort keyLE l₂).map Prod.fst).nodup_iff).mpr hn'
  have s1 : List.Sorted keyLT (sortByKey l₁) :=
    sorted_keyLT_of_sorted_keyLE (List.sorted_insertionSort keyLE l₁) hn1
  have s2 : List.Sorted keyLT (sortByKey l₂) :=
    sorted_keyLT_of_sorted_keyLE (List.sorted_insertionSort keyLE l₂) hn2
  exact List.eq_of_perm_of_sorted p1 s1 s2

/-- The check `keysDistinct` decides `List.Nodup`. -/
theorem keysDistinct_iff_nodup {l : List String} :
    keysDistinct l = true ↔ l.Nodup := by
  induction l with
  | nil => simp [keysDistinct]
  | cons k ks ih =>
    simp only [keysDistinct, Bool.and_eq_true, Bool.not_eq_true',
      List.nodup_cons, ih]
    constructor
    · rintro ⟨h1, h2⟩
      refine ⟨fun hm => ?_, h2⟩
      have h1' : List.elem k ks = false := h1
      rw [List.elem_eq_true_of_mem hm] at h1'
      cases h1' 
    · rintro ⟨h1, h2⟩
      refine ⟨?_, h2⟩
      by_cases hc : ks.contains k = true
      · exact absurd (List.mem_of_elem_eq_true hc) h1
      · simpa using hc

/-- A successful lookup returns a binding of the list. -/
theorem lookupStr_mem {k : String} {m : List (String × α)} {v : α}
    (h : lookupStr k m = some v) : (k, v) ∈ m := by
  induction m with
  | nil => simp [lookupStr] at h
  | cons p ps ih =>
    obtain ⟨pk, pv⟩ := p
    simp only [lookupStr] at h
    by_cases hk : pk = k
    · subst hk
      rw [if_pos rfl] at h
      injection h with h
      subst h
      exact List.mem_cons_self _ _
    · rw [if_neg hk] at h
      exact List.mem_cons_of_mem _ (ih h)

/-- With distinct keys, every binding is found by lookup. -/
theorem lookup_eq_of_mem_nodup {m : List (String × α)} {k : String} {v : α}
    (hn : (m.map Prod.fst).Nodup) (h : (k, v) ∈ m) : lookupStr k m = some v := by
  induction m with
  | nil => cases h
  | cons p ps ih =>
    simp only [List.map_cons, List.nodup_cons] at hn
    rcases List.mem_cons.mp h with rfl | hmem
    · simp [lookupStr]
    · simp only [lookupStr]
      have hk : p.1 ≠ k := by
        intro hk
        exact hn.1 (hk ▸ List.mem_map.mpr ⟨(k, v), hmem, rfl⟩)
      rw [if_neg hk]
      exact ih hn.2 hmem

/-- The function `dumpsPairs` renders each field's value in place. -/
theorem dumpsPairs_eq_map (fs : List (String × JVal)) :
    dumpsPairs fs = fs.map (fun p => (p.1, dumpsSorted p.2)) := by
  induction fs with
  | nil => rfl
  | cons p fs ih =>
    obtain ⟨k, v⟩ := p
    simp [dumpsPairs, ih]

/-- Every field of the left object is matched by key in the right one. -/
theorem jequivFields_lookup {fs gs : List (String × JVal)}
    (h : jequivFields fs gs = true) :
    ∀ p ∈ fs, ∃ w, lookupStr p.1 gs = some w ∧ jequiv p.2 w = true := by
  induction fs with
  | nil => simp
  | cons q fs ih =>
    obtain ⟨k, v⟩ := q
    simp only [jequivFields, Bool.and_eq_true] at h
    intro p hp
    rcases List.mem_cons.mp hp with rfl | hp'
    · cases hl : lookupStr (k, v).1 gs with
      | none =>
        rw [show (k, v).1 = k from rfl] at hl
        rw [hl] at h
        simp at h
      | some w =>
        rw [show (k, v).1 = k from rfl] at hl
        rw [hl] at h
        exact ⟨w, rfl, h.1⟩
    · exact ih h.2 p hp'

/-- All field values of a well-formed object are well-formed. -/
theorem wfKeysFields_forall {fs : List (String × JVal)}
    (h : wfKeysFields fs = true) : ∀ p ∈ fs, wfKeys p.2 = true := by
  induction fs with
  | nil => simp
  | cons q fs ih =>
    simp only [wfKeysFields, Bool.and_eq_true] at h
    intro p hp
    rcases List.mem_cons.mp hp with rfl | hp'
    · exact h.1
    · exact ih h.2 p hp'

/-- All elements of a well-formed array are well-formed. -/
theorem wfKeysList_forall {xs : List JVal}
    (h : wfKeysList xs = true) : ∀ x ∈ xs, wfKeys x = true := by
  induction xs with
  | nil => simp
  | cons y xs ih =>
    simp only [wfKeysList, Bool.and_eq_true] at h
    intro x hx
    rcases List.mem_cons.mp hx with rfl | hx'
    · exact h.1
    · exact ih h.2 x hx'

/-- Rendering of the value bound to a key (empty when the key is absent;
only applied to present keys). -/
def lookupRender (gs : List (String × JVal)) (k : String) : String :=
  match lookupStr k gs with
  | some w => dumpsSorted w
  | Option.none => ""

/-- Equivalent well-formed arrays render elementwise equally. -/
theorem jequivList_dumpsElems {xs : List JVal}
    (ih : ∀ x ∈ xs, wfKeys x = true → ∀ w, jequiv x w = true →
      wfKeys w = true → dumpsSorted x = dumpsSorted w)
    (hwf : wfKeysList xs = true) :
    ∀ ys, jequivList xs ys = true → wfKeysList ys = true →
      dumpsElems xs = dumpsElems ys := by
  induction xs with
  | nil =>
    intro ys h _
    cases ys with
    | nil => rfl
    | cons y ys => simp [jequivList] at h
  | cons x xs ihl =>
    intro ys h hys
    cases ys with
    | nil => simp [jequivList] at h
    | cons y ys =>
      simp only [jequivList, Bool.and_eq_true] at h
      simp only [wfKeysList, Bool.and_eq_true] at hwf hys
      simp only [dumpsElems]
      rw [ih x (List.mem_cons_self x xs) hwf.1 y h.1 hys.1,
        ihl (fun z hz => ih z (List.mem_cons_of_mem x hz)) hwf.2 ys h.2 hys.2]

/-- Equivalent well-formed values have equal canonical serializations:
the heart of cache-key determinism. -/
theorem jequiv_dumpsSorted :
    ∀ v, wfKeys v = true → ∀ w, jequiv v w = true → wfKeys w = true →
      dumpsSorted v = dumpsSorted w := by
  intro v
  induction v using JVal.indOn with
  | hnull =>
    intro _ w h _
    cases w <;> simp [jequiv] at h <;> rfl
  | hbool b =>
    intro _ w h _
    cases w <;> simp [jequiv] at h
    case jbool b' => rw [h]
  | hnum n =>
    intro _ w h _
    cases w <;> simp [jequiv] at h
    case jnum n' => rw [h]
  | hstr s =>
    intro _ w h _
    cases w <;> simp [jequiv] at h
    case jstr s' => rw [h]
  | harr xs ih =>
    intro hwf w h hwfw
    cases w <;> simp [jequiv] at h
    case jarr ys =>
      simp only [wfKeys] at hwf hwfw
      simp only [dumpsSorted]
      rw [jequivList_dumpsElems ih hwf ys h hwfw]
  | hobj fs ih =>
    intro hwf w h hwfw
    cases w <;> simp [jequiv] at h
    case jobj gs =>
      obtain ⟨hlen, hfields⟩ := h
      simp only [wfKeys, Bool.and_eq_true] at hwf hwfw
      obtain ⟨hnfs, hwffs⟩ := hwf
      obtain ⟨hngs, hwfgs⟩ := hwfw
      have hnfs' : (fs.map Prod.fst).Nodup := keysDistinct_iff_nodup.mp hnfs
      have hngs' : (gs.map Prod.fst).Nodup := keysDistinct_iff_nodup.mp hngs
      have hmatch := jequivFields_lookup hfields
      -- each side's rendered pairs are the image of its key list
      have hA : dumpsPairs fs =
          (fs.map Prod.fst).map (fun k => (k, lookupRender gs k)) := by
        rw [dumpsPairs_eq_map, List.map_map]
        refine List.map_congr_left ?_
        intro p hp
        obtain ⟨w, hl, heq⟩ := hmatch p hp
        have hwfp : wfKeys p.2 = true := wfKeysFields_forall hwffs p hp
        have hwfw' : wfKeys w = true :=
          wfKeysFields_forall hwfgs (p.1, w) (lookupStr_mem hl)
        have : dumpsSorted p.2 = dumpsSorted w := ih p hp hwfp w heq hwfw'
        simp only [Function.comp_apply, lookupRender, hl, this]
      have hB : dumpsPairs gs =
          (gs.map Prod.fst).map (fun k => (k, lookupRender gs k)) := by
        rw [dumpsPairs_eq_map, List.map_map]
        refine List.map_congr_left ?_
        intro q hq
        have hlq : lookupStr q.1 gs = some q.2 :=
          lookup_eq_of_mem_nodup hngs' (by simpa using hq)
        simp only [Function.comp_apply, lookupRender, hlq]
      -- the two key lists are permutations of each other
      have hsub : (fs.map Prod.fst) ⊆ (gs.map Prod.fst) := by
        intro k hk
        obtain ⟨p, hp, hpk⟩ := List.mem_map.mp hk
        obtain ⟨w, hl, _⟩ := hmatch p hp
        exact List.mem_map.mpr ⟨(p.1, w), lookupStr_mem hl, hpk⟩
      have hkeys : (fs.map Prod.fst).Perm (gs.map Prod.fst) :=
        (List.subperm_of_subset hnfs' hsub).perm_of_length_le
          (by simp [List.length_map, hlen])
      -- hence the rendered pair lists are permutations with distinct keys
      have hperm : (dumpsPairs fs).Perm (dumpsPairs gs) := by
        rw [hA, hB]
        exact hkeys.map _
      have hnk : ((dumpsPairs fs).map Prod.fst).Nodup := by
        rw [hA, List.map_map]
        simpa [Function.comp] using hnfs'
      simp only [dumpsSorted]
      rw [sortByKey_eq_of_perm hperm hnk]

/-- C4 (key determinism): for every namespace and every two parameter sets
that contain the same key-value pairs — possibly constructed in different
orders, including inside nested mappings — `_generate_key` produces
identical cache key strings.  (`wfKeys` records that the parameter sets
come from Python dicts, which cannot hold duplicate keys.) -/
theorem C4_key_determinism (digest : String → String) (ns : String)
    (p1 p2 : List (String × JVal))
    (heq : jequiv (.jobj p1) (.jobj p2) = true)
    (h1 : wfKeys (.jobj p1) = true) (h2 : wfKeys (.jobj p2) = true) :
    generate_key digest ns p1 = generate_key digest ns p2 := by
  unfold generate_key
  rw [jequiv_dumpsSorted (.jobj p1) h1 (.jobj p2) heq h2]

/-- Witness for C4: two concrete parameter sets with the same pairs in
different orders (also inside the nested mapping) derive the same key. -/
theorem C4_key_determinism_witness :
    generate_key (fun s => s) "products"
        [("b", .jnum 2), ("a", .jobj [("y", .jnum 1), ("x", .jnull)])] =
      generate_key (fun s => s) "products"
        [("a", .jobj [("x", .jnull), ("y", .jnum 1)]), ("b", .jnum 2)] :=
  C4_key_determinism (fun s => s) "products"
    [("b", .jnum 2), ("a", .jobj [("y", .jnum 1), ("x", .jnull)])]
    [("a", .jobj [("x", .jnull), ("y", .jnum 1)]), ("b", .jnum 2)]
    (by decide) (by decide) (by decide)

/-! ### Dictionary read-after-write lemmas -/

/-- Lookup in an overwrite-map touches no key other than the overwritten
one. -/
theorem lookupStr_map_overwrite (ps : List (String × Entry)) (k k' : String)
    (e : Entry) (h : k' ≠ k) :
    lookupStr k' (ps.map (fun q => if q.1 = k then (k, e) else q)) =
      lookupStr k' ps := by
  induction ps with
  | nil => rfl
  | cons q ps ih =>
    obtain ⟨qk, qe⟩ := q
    by_cases hq : qk = k
    · subst hq
      simp only [List.map_cons, if_pos rfl, lookupStr]
      rw [if_neg (fun hh => h hh.symm), if_neg (fun hh => h hh.symm), ih]
    · simp only [List.map_cons, lookupStr, if_neg hq]
      by_cases hq' : qk = k'
      · rw [if_pos hq', if_pos hq']
      · rw [if_neg hq', if_neg hq', ih]

/-- Lookup of the overwritten key in an overwrite-map. -/
theorem lookupStr_map_overwrite_self (m : List (String × Entry)) (k : String)
    (e : Entry) (h : (m.any fun p => decide (p.1 = k)) = true) :
    lookupStr k (m.map (fun q => if q.1 = k then (k, e) else q)) = some e := by
  induction m with
  | nil => simp at h
  | cons p ps ih =>
    obtain ⟨pk, pe⟩ := p
    by_cases hp : pk = k
    · subst hp
      simp [lookupStr]
    · simp only [List.any_cons, Bool.or_eq_true] at h
      rcases h with h' | h'
      · exact absurd (of_decide_eq_true h') hp
      · simp only [List.map_cons, if_neg hp, lookupStr]
        exact ih h'

/-- A key that occurs nowhere in the list looks up to nothing. -/
theorem lookupStr_eq_none (m : List (String × Entry)) (k : String)
    (h : (m.any fun p => decide (p.1 = k)) = false) :
    lookupStr k m = Option.none := by
  induction m with
  | nil => rfl
  | cons p ps ih =>
    simp only [List.any_cons, Bool.or_eq_false_iff] at h
    simp only [lookupStr]
    rw [if_neg (by simpa using h.1)]
    exact ih h.2

/-- Lookup distributes over append, preferring the front list. -/
theorem lookupStr_append (k : String) (l1 l2 : List (String × Entry)) :
    lookupStr k (l1 ++ l2) =
      (match lookupStr k l1 with
       | some v => some v
       | Option.none => lookupStr k l2) := by
  induction l1 with
  | nil => rfl
  | cons p ps ih =>
    simp only [List.cons_append, lookupStr]
    by_cases hp : p.1 = k
    · rw [if_pos hp, if_pos hp]
    · rw [if_neg hp, if_neg hp]
      simpa [List.append_eq] using ih

/-- Reading a dict right after a write of the same key. -/
theorem dictGet_dictSet_self (m : List (String × Entry)) (k : String) (e : Entry) :
    dictGet (dictSet m k e) k = some e := by
  unfold dictGet dictSet
  by_cases hc : (m.any fun p => decide (p.1 = k)) = true
  · rw [if_pos hc]
    exact lookupStr_map_overwrite_self m k e hc
  · rw [if_neg hc, lookupStr_append,
      lookupStr_eq_none m k (Bool.eq_false_iff.mpr hc)]
    simp [lookupStr]

/-- Reading a dict after a write of a different key. -/
theorem dictGet_dictSet_ne (m : List (String × Entry)) (k k' : String)
    (e : Entry) (h : k' ≠ k) :
    dictGet (dictSet m k e) k' = dictGet m k' := by
  unfold dictGet dictSet
  by_cases hc : (m.any fun p => decide (p.1 = k)) = true
  · rw [if_pos hc]
    exact lookupStr_map_overwrite m k k' e h
  · rw [if_neg hc, lookupStr_append]
    cases hl : lookupStr k' m with
    | some v => rfl
    | none =>
      simp only [lookupStr]
      rw [if_neg (fun hh => h hh.symm)]

/-- Reading a dict after deleting the same key. -/
theorem dictGet_dictDel_self (m : List (String × Entry)) (k : String) :
    dictGet (dictDel m k) k = Option.none := by
  induction m with
  | nil => rfl
  | cons p ps ih =>
    simp only [dictDel, List.filter_cons] at *
    by_cases hp : p.1 = k
    · rw [if_neg (by simp [hp])]
      exact ih
    · rw [if_pos (by simpa using hp)]
      simp only [dictGet, lookupStr] at *
      rw [if_neg hp]
      exact ih

/-- Reading a dict after deleting a different key. -/
theorem dictGet_dictDel_ne (m : List (String × Entry)) (k k' : String)
    (h : k' ≠ k) :
    dictGet (dictDel m k) k' = dictGet m k' := by
  induction m with
  | nil => rfl
  | cons p ps ih =>
    simp only [dictDel, List.filter_cons] at *
    by_cases hp : p.1 = k
    · rw [if_neg (by simp [hp])]
      simp only [dictGet, lookupStr] at *
      rw [if_neg (fun hh => h (hh.symm.trans hp))]
      exact ih
    · rw [if_pos (by simpa using hp)]
      simp only [dictGet, lookupStr] at *
      by_cases hp' : p.1 = k'
      · rw [if_pos hp', if_pos hp']
      · rw [if_neg hp', if_neg hp']
        exact ih

/-! ### Claim theorems -/

/-- C2 (degrade-on-disconnect): on any backend instance whose connection
state is disabled, `get` returns absent (`None`) and `set`, `delete` and
`clear_pattern` return failure (`False`), for every input, leaving the
state unchanged; every modelled operation is total, so nothing is raised.
For the remote backend this holds regardless of how the network would
behave: the guard returns before any network call. -/
theorem C2_degrade_on_disconnect :
    (∀ (st : CacheSt), st.connected = false →
      ∀ (key : String) (value : JVal) (ttl now : Int) (pat : String),
        SimpleCacheManager.get st key now = (.jnull, st) ∧
        SimpleCacheManager.set st key value ttl now = (false, st) ∧
        SimpleCacheManager.delete st key = (false, st) ∧
        SimpleCacheManager.clear_pattern st pat = (false, st)) ∧
    (∀ (m : RedisSt), m.connected = false →
      ∀ (netGet : String → JVal) (netSet : String → JVal → Int → Bool)
        (netDel netClear : String → Bool) (key : String) (value : JVal)
        (ttl : Int) (pat : String),
        CacheManager.get m netGet key = .jnull ∧
        CacheManager.set m netSet key value ttl = false ∧
        CacheManager.delete m netDel key = false ∧
        CacheManager.clear_pattern m netClear pat = false) := by
  constructor
  · intro st h key value ttl now pat
    refine ⟨?_, ?_, ?_, ?_⟩ <;>
      simp [SimpleCacheManager.get, SimpleCacheManager.set,
        SimpleCacheManager.delete, SimpleCacheManager.clear_pattern, h]
  · intro m h netGet netSet netDel netClear key value ttl pat
    refine ⟨?_, ?_, ?_, ?_⟩ <;>
      simp [CacheManager.get, CacheManager.set, CacheManager.delete,
        CacheManager.clear_pattern, h]

/-- Witness for C2 at a concrete disconnected state of each backend. -/
theorem C2_degrade_on_disconnect_witness :
    SimpleCacheManager.get ⟨[("k", ⟨.jnum 1, 300, 0⟩)], false⟩ "k" 0
        = (.jnull, ⟨[("k", ⟨.jnum 1, 300, 0⟩)], false⟩) ∧
      CacheManager.get ⟨false, true⟩ (fun _ => .jnum 9) "k" = .jnull :=
  ⟨(C2_degrade_on_disconnect.1 ⟨[("k", ⟨.jnum 1, 300, 0⟩)], false⟩ rfl
      "k" .jnull 300 0 "*").1,
    (C2_degrade_on_disconnect.2 ⟨false, true⟩ rfl (fun _ => .jnum 9)
      (fun _ _ _ => true) (fun _ => true) (fun _ => true)
      "k" .jnull 300 "*").1⟩

/-- C3 counterexample: the claim says an entry stored with ttl is absent
at every time at or after `created_at + ttl`; the code's expiry check is
strict (`current_time > expires_at`), so at exactly `created_at + ttl`
(here: set at time 0 with ttl 1, get at time 1) the value is still
returned. -/
theorem C3_counterexample :
    (SimpleCacheManager.get
        ((SimpleCacheManager.set ⟨[], true⟩ "k" (.jnum 7) 1 0).2) "k" 1).1
      = .jnum 7 ∧ JVal.jnum 7 ≠ .jnull := by
  refine ⟨by decide, by decide⟩

/-- Behaviour of `get` after `set` on a connected store: the entry is
returned up to and including `t0 + ttl`, and is absent and evicted at
every strictly later time. -/
theorem get_after_set_spec (st : CacheSt) (key : String) (v : JVal)
    (ttl t0 t : Int) (hc : st.connected = true) :
    (t ≤ t0 + ttl →
      SimpleCacheManager.get ((SimpleCacheManager.set st key v ttl t0).2) key t
        = (v, (SimpleCacheManager.set st key v ttl t0).2)) ∧
    (t0 + ttl < t →
      (SimpleCacheManager.get
          ((SimpleCacheManager.set st key v ttl t0).2) key t).1 = .jnull ∧
      dictGet (SimpleCacheManager.get
          ((SimpleCacheManager.set st key v ttl t0).2) key t).2.cache key
        = Option.none) := by
  have h2 : (SimpleCacheManager.set st key v ttl t0).2 =
      { st with cache := dictSet st.cache key ⟨v, t0 + ttl, t0⟩ } := by
    simp [SimpleCacheManager.set, hc]
  constructor
  · intro ht
    rw [h2]
    simp only [SimpleCacheManager.get, hc, Bool.not_true, Bool.false_eq_true,
      if_false]
    rw [dictGet_dictSet_self]
    dsimp only
    rw [if_neg (by omega : ¬ t > t0 + ttl)]
  · intro ht
    rw [h2]
    simp only [SimpleCacheManager.get, hc, Bool.not_true, Bool.false_eq_true,
      if_false]
    rw [dictGet_dictSet_self]
    dsimp only
    rw [if_pos (by omega : t > t0 + ttl)]
    refine ⟨rfl, ?_⟩
    simp only
    rw [dictGet_dictDel_self]

/-- C3 (amended): for the in-process store, an entry stored by `set` with
ttl at time `t0` is retrievable by `get` at any time up to AND INCLUDING
`t0 + ttl`; at every strictly later time `get` returns absent and also
evicts the entry. -/
theorem C3_expiry_boundary (st : CacheSt) (key : String) (v : JVal)
    (ttl t0 t : Int) (hc : st.connected = true) :
    (t ≤ t0 + ttl →
      SimpleCacheManager.get ((SimpleCacheManager.set st key v ttl t0).2) key t
        = (v, (SimpleCacheManager.set st key v ttl t0).2)) ∧
    (t0 + ttl < t →
      (SimpleCacheManager.get
          ((SimpleCacheManager.set st key v ttl t0).2) key t).1 = .jnull ∧
      dictGet (SimpleCacheManager.get
          ((SimpleCacheManager.set st key v ttl t0).2) key t).2.cache key
        = Option.none) :=
  get_after_set_spec st key v ttl t0 t hc

/-- Witness for C3 at both sides of the boundary: set at 0 with ttl 300,
retrievable at 300, absent and evicted at 301. -/
theorem C3_expiry_boundary_witness :
    (SimpleCacheManager.get
        ((SimpleCacheManager.set ⟨[], true⟩ "k" (.jnum 7) 300 0).2) "k" 300
      = (.jnum 7, (SimpleCacheManager.set ⟨[], true⟩ "k" (.jnum 7) 300 0).2)) ∧
    ((SimpleCacheManager.get
        ((SimpleCacheManager.set ⟨[], true⟩ "k" (.jnum 7) 300 0).2) "k" 301).1
      = .jnull) :=
  ⟨(C3_expiry_boundary ⟨[], true⟩ "k" (.jnum 7) 300 0 300 rfl).1 (by decide),
    ((C3_expiry_boundary ⟨[], true⟩ "k" (.jnum 7) 300 0 301 rfl).2
      (by decide)).1⟩

/-- C5 counterexample: the claim says that after `set` with ttl = 0 every
subsequent `get`, including one with no clock advance, returns absent;
but with `expires_at = now + 0 = now` and the strict check
`now > expires_at`, a `get` at the very same time returns the value. -/
theorem C5_counterexample :
    (SimpleCacheManager.get
        ((SimpleCacheManager.set ⟨[], true⟩ "k" (.jnum 7) 0 5).2) "k" 5).1
      = .jnum 7 ∧ JVal.jnum 7 ≠ .jnull := by
  refine ⟨by decide, by decide⟩

/-- C5 (amended): after `set(key, value, ttl)` with `ttl ≤ 0` at time
`t0`, a `get(key)` at any time `t` with `t0 + ttl < t` returns absent —
so for `ttl < 0` the entry is never retrievable (absent at every
`t ≥ t0`), while for `ttl = 0` it is absent at every time strictly after
the set but is still returned by a `get` at exactly the set time. -/
theorem C5_nonpositive_ttl (st : CacheSt) (key : String) (v : JVal)
    (ttl t0 : Int) (hc : st.connected = true) (httl : ttl ≤ 0) :
    (∀ t, t0 + ttl < t →
      (SimpleCacheManager.get
        ((SimpleCacheManager.set st key v ttl t0).2) key t).1 = .jnull) ∧
    (ttl = 0 →
      (SimpleCacheManager.get
        ((SimpleCacheManager.set st key v ttl t0).2) key t0).1 = v) := by
  constructor
  · intro t ht
    exact ((get_after_set_spec st key v ttl t0 t hc).2 ht).1
  · intro h0
    rw [(get_after_set_spec st key v ttl t0 t0 hc).1 (by omega)]

/-- Witness for C5: ttl = -1 at time 5 is absent at time 5 already;
ttl = 0 at time 5 is still returned at time 5. -/
theorem C5_nonpositive_ttl_witness :
    (SimpleCacheManager.get
        ((SimpleCacheManager.set ⟨[], true⟩ "k" (.jnum 7) (-1) 5).2) "k" 5).1
      = .jnull ∧
    (SimpleCacheManager.get
        ((SimpleCacheManager.set ⟨[], true⟩ "k" (.jnum 7) 0 5).2) "k" 5).1
      = .jnum 7 :=
  ⟨(C5_nonpositive_ttl ⟨[], true⟩ "k" (.jnum 7) (-1) 5 rfl (by decide)).1
      5 (by decide),
    (C5_nonpositive_ttl ⟨[], true⟩ "k" (.jnum 7) 0 5 rfl (by decide)).2 rfl⟩

/-- C7 (pattern clear scoping): after `set("products:abc", x)` and
`set("product:xyz", y)`, `clear_pattern("products:*")` succeeds, removes
only the key `"products:abc"`, and a subsequent `get("product:xyz")`
still returns `y` while `get("products:abc")` is absent. -/
theorem C7_pattern_clear_scoping :
    (SimpleCacheManager.clear_pattern
        ((SimpleCacheManager.set
          ((SimpleCacheManager.set ⟨[], true⟩
            "products:abc" (.jstr "x") 300 0).2)
          "product:xyz" (.jstr "y") 300 0).2)
        "products:*").1 = true ∧
    (SimpleCacheManager.clear_pattern
        ((SimpleCacheManager.set
          ((SimpleCacheManager.set ⟨[], true⟩
            "products:abc" (.jstr "x") 300 0).2)
          "product:xyz" (.jstr "y") 300 0).2)
        "products:*").2.cache
      = [("product:xyz", ⟨.jstr "y", 300, 0⟩)] ∧
    (SimpleCacheManager.get
        (SimpleCacheManager.clear_pattern
          ((SimpleCacheManager.set
            ((SimpleCacheManager.set ⟨[], true⟩
              "products:abc" (.jstr "x") 300 0).2)
            "product:xyz" (.jstr "y") 300 0).2)
          "products:*").2
        "product:xyz" 0).1 = .jstr "y" ∧
    (SimpleCacheManager.get
        (SimpleCacheManager.clear_pattern
          ((SimpleCacheManager.set
            ((SimpleCacheManager.set ⟨[], true⟩
              "products:abc" (.jstr "x") 300 0).2)
            "product:xyz" (.jstr "y") 300 0).2)
          "products:*").2
        "products:abc" 0).1 = .jnull := by
  refine ⟨by decide, by decide, by decide, by decide⟩

/-- C8 counterexample: the claim says every entry created by `set`
satisfies `expires_at > created_at` for every ttl with which `set` can be
called; calling `set` with ttl = 0 creates an entry with
`expires_at = created_at`. -/
theorem C8_counterexample :
    dictGet ((SimpleCacheManager.set ⟨[], true⟩ "k" (.jnum 1) 0 5).2).cache "k"
        = some ⟨.jnum 1, 5, 5⟩ ∧
      ¬ ((5 : Int) < 5) := by
  refine ⟨by decide, by decide⟩

/-- C8 (amended): every entry created by `set` with a POSITIVE ttl
satisfies `expires_at > created_at` (with `expires_at = created_at + ttl`
this holds exactly when `ttl > 0`; the code accepts non-positive ttls,
for which the invariant fails). -/
theorem C8_entry_invariant (st : CacheSt) (key : String) (v : JVal)
    (ttl t0 : Int) (hc : st.connected = true) (httl : 0 < ttl) :
    ∀ e, dictGet ((SimpleCacheManager.set st key v ttl t0).2).cache key = some e →
      e.created_at < e.expires_at := by
  intro e he
  have h2 : (SimpleCacheManager.set st key v ttl t0).2 =
      { st with cache := dictSet st.cache key ⟨v, t0 + ttl, t0⟩ } := by
    simp [SimpleCacheManager.set, hc]
  rw [h2] at he
  simp only at he
  rw [dictGet_dictSet_self] at he
  injection he with he
  rw [← he]
  simpa using httl

/-- Witness for C8: a concrete entry created with ttl = 300. -/
theorem C8_entry_invariant_witness :
    (0:Int) < 300 ∧
      ((⟨.jnum 1, 300, 0⟩ : Entry).created_at <
        (⟨.jnum 1, 300, 0⟩ : Entry).expires_at) :=
  ⟨by decide,
    C8_entry_invariant ⟨[], true⟩ "k" (.jnum 1) 300 0 rfl (by decide)
      ⟨.jnum 1, 300, 0⟩ (by decide)⟩

/-- C10 (delete is idempotent success): for the in-process backend in the
connected state, `delete(key)` returns `True` whether or not the key is
present, removes any entry under that key, and leaves the entry under
every other key unchanged. -/
theorem C10_delete_total (st : CacheSt) (key : String)
    (hc : st.connected = true) :
    (SimpleCacheManager.delete st key).1 = true ∧
    dictGet (SimpleCacheManager.delete st key).2.cache key = Option.none ∧
    (∀ k', k' ≠ key →
      dictGet (SimpleCacheManager.delete st key).2.cache k'
        = dictGet st.cache k') := by
  have h2 : SimpleCacheManager.delete st key =
      (true, { st with cache := dictDel st.cache key }) := by
    simp [SimpleCacheManager.delete, hc]
  rw [h2]
  refine ⟨rfl, ?_, ?_⟩
  · exact dictGet_dictDel_self st.cache key
  · intro k' hk'
    exact dictGet_dictDel_ne st.cache key k' hk'

/-- Witness for C10: deleting an absent key from a one-entry store
returns `True` and leaves the other key's entry unchanged. -/
theorem C10_delete_total_witness :
    (SimpleCacheManager.delete ⟨[("a", ⟨.jnum 1, 300, 0⟩)], true⟩ "b").1 = true ∧
    dictGet (SimpleCacheManager.delete
        ⟨[("a", ⟨.jnum 1, 300, 0⟩)], true⟩ "b").2.cache "a"
      = some ⟨.jnum 1, 300, 0⟩ := by
  refine ⟨(C10_delete_total ⟨[("a", ⟨.jnum 1, 300, 0⟩)], true⟩ "b" rfl).1, ?_⟩
  rw [(C10_delete_total ⟨[("a", ⟨.jnum 1, 300, 0⟩)], true⟩ "b" rfl).2.2 "a"
    (by decide)]
  decide

/-- C6 counterexample: the claim says a wildcard-free `clear_matching`
pattern removes exactly the key that is string-equal to it; the code does
a `startswith` match, so clearing `"x"` also removes the different key
`"xy"` (whose entry should have been left unchanged). -/
theorem C6_counterexample :
    (SimpleCacheManager.get
        ((SimpleCacheManager.clear_pattern
          ⟨[("x", ⟨.jnum 1, 300, 0⟩), ("xy", ⟨.jnum 2, 300, 0⟩)], true⟩
          "x").2) "xy" 0).1 = .jnull ∧ JVal.jnull ≠ .jnum 2 := by
  refine ⟨by decide, by decide⟩

/-- A list is a prefix of itself. -/
theorem isPrefixOf_self : ∀ l : List Char, l.isPrefixOf l = true
  | [] => rfl
  | c :: cs => by simp [List.isPrefixOf, isPrefixOf_self cs]

/-- Every string starts with itself. -/
theorem strStartsWith_self (s : String) : strStartsWith s s = true :=
  isPrefixOf_self s.data

/-- Removing `"*"` from a pattern that has none is the identity. -/
theorem stripStar_eq_self {pat : String} (h : pat.data.contains '*' = false) :
    stripStar pat = pat := by
  unfold stripStar
  cases pat with
  | mk l =>
    congr 1
    apply List.filter_eq_self.mpr
    intro c hc
    simp only [decide_eq_true_eq]
    intro hstar
    subst hstar
    have h' : List.elem '*' l = false := h
    have h1 : List.elem '*' l = true := List.elem_eq_true_of_mem hc
    rw [h1] at h'
    cases h' 

/-- Lookup misses in a filtered list whose predicate rejects the key. -/
theorem lookupStr_filter_none (m : List (String × Entry)) (k : String)
    (pred : String × Entry → Bool) (h : ∀ e, pred (k, e) = false) :
    lookupStr k (m.filter pred) = Option.none := by
  induction m with
  | nil => rfl
  | cons p ps ih =>
    obtain ⟨pk, pe⟩ := p
    simp only [List.filter_cons]
    by_cases hp : pred (pk, pe) = true
    · rw [if_pos hp]
      simp only [lookupStr]
      by_cases hk : pk = k
      · subst hk
        rw [h pe] at hp
        cases hp
      · rw [if_neg hk]
        exact ih
    · rw [if_neg hp]
      exact ih

/-- A filter by key-difference keeps a list without that key intact. -/
theorem filter_ne_of_not_mem (m : List (String × Entry)) (k : String)
    (h : k ∉ m.map Prod.fst) :
    m.filter (fun p => p.1 ≠ k) = m := by
  apply List.filter_eq_self.mpr
  intro p hp
  simp only [decide_eq_true_eq]
  intro hk
  exact h (hk ▸ List.mem_map.mpr ⟨p, hp, rfl⟩)

/-- Deleting a present key from a dict with distinct keys shrinks it by
exactly one binding. -/
theorem dictDel_length (m : List (String × Entry)) (k : String)
    (hn : keysDistinct (m.map Prod.fst) = true)
    (e : Entry) (he : lookupStr k m = some e) :
    (dictDel m k).length + 1 = m.length := by
  induction m with
  | nil => cases he
  | cons p ps ih =>
    obtain ⟨pk, pe⟩ := p
    simp only [List.map_cons, keysDistinct, Bool.and_eq_true,
      Bool.not_eq_true'] at hn
    by_cases hp : pk = k
    · subst hp
      simp only [dictDel, List.filter_cons]
      rw [if_neg (by simp)]
      have hnot : pk ∉ ps.map Prod.fst := by
        intro hk
        have h1 : List.elem pk (ps.map Prod.fst) = true :=
          List.elem_eq_true_of_mem hk
        have h2 : List.elem pk (ps.map Prod.fst) = false := hn.1
        rw [h1] at h2
        cases h2
      have hkeep : ps.filter (fun p => decide (p.1 ≠ pk)) = ps :=
        filter_ne_of_not_mem ps pk hnot
      rw [hkeep]
      simp
    · have he' : lookupStr k ps = some e := by
        simpa [lookupStr, hp] using he
      simp only [dictDel, List.filter_cons]
      rw [if_pos (by simpa using hp)]
      simp only [List.length_cons]
      have := ih hn.2 he'
      simp only [dictDel] at this
      omega

/-- C6 (amended): for the in-process store, `clear_pattern` with a
wildcard-free pattern succeeds and removes exactly the entries whose key
STARTS WITH the pattern (the match is `startswith`, anchored only at the
front — not string equality).  Consequently a subsequent `get` of the
pattern itself is absent; and when the store has distinct keys, all its
entries are live, the pattern is a present key, and no OTHER key starts
with the pattern, the reported live key count decreases by exactly 1. -/
theorem C6_exact_pattern_clear (st : CacheSt) (pat : String) (now : Int)
    (hc : st.connected = true) (hstar : pat.data.contains '*' = false) :
    (SimpleCacheManager.clear_pattern st pat).1 = true ∧
    (SimpleCacheManager.clear_pattern st pat).2.cache
      = st.cache.filter (fun p => !(strStartsWith p.1 pat)) ∧
    (∀ t, (SimpleCacheManager.get
        (SimpleCacheManager.clear_pattern st pat).2 pat t).1 = .jnull) ∧
    (keysDistinct (st.cache.map Prod.fst) = true →
      (∀ p ∈ st.cache, now ≤ p.2.expires_at) →
      (∀ p ∈ st.cache, p.1 ≠ pat → strStartsWith p.1 pat = false) →
      ∀ e, lookupStr pat st.cache = some e →
        (get_cache_stats
            (SimpleCacheManager.clear_pattern st pat).2 now).1.keys + 1
          = (get_cache_stats st now).1.keys) := by
  have hne : pat ≠ "*" := by
    intro hp
    subst hp
    exact absurd hstar (by decide)
  have hclear : SimpleCacheManager.clear_pattern st pat =
      (true, { st with cache :=
        st.cache.filter (fun p => !(strStartsWith p.1 pat)) }) := by
    unfold SimpleCacheManager.clear_pattern
    rw [hc]
    simp only [Bool.not_true, Bool.false_eq_true, if_false]
    rw [if_neg hne, stripStar_eq_self hstar]
  have hnone : dictGet
      (st.cache.filter (fun p => !(strStartsWith p.1 pat))) pat
        = Option.none :=
    lookupStr_filter_none _ _ _ (fun e => by
      show (!(strStartsWith (pat, e).1 pat)) = false
      rw [strStartsWith_self]
      rfl)
  refine ⟨by rw [hclear], by rw [hclear], ?_, ?_⟩
  · intro t
    rw [hclear]
    simp only [SimpleCacheManager.get, hc, Bool.not_true, Bool.false_eq_true,
      if_false]
    rw [hnone]
  · intro hnd hlive honly e he
    have hlive' : st.cache.filter (fun p => !(now > p.2.expires_at)) = st.cache :=
      List.filter_eq_self.mpr (fun p hp => by
        have := hlive p hp
        simp only [Bool.not_eq_true', decide_eq_false_iff_not]
        omega)
    have hpre : (get_cache_stats st now).1.keys = st.cache.length := by
      unfold get_cache_stats
      rw [hc]
      simp [SimpleCacheManager.cleanup_expired, hlive']
    have hCdel : st.cache.filter (fun p => !(strStartsWith p.1 pat))
        = dictDel st.cache pat := by
      apply List.filter_congr
      intro p hp
      by_cases hk : p.1 = pat
      · rw [hk, strStartsWith_self]
        simp [hk]
      · rw [honly p hp hk]
        simp [hk]
    have hsub : (dictDel st.cache pat).filter
        (fun p => !(now > p.2.expires_at)) = dictDel st.cache pat :=
      List.filter_eq_self.mpr (fun p hp => by
        have hmem : p ∈ st.cache := List.mem_of_mem_filter hp
        have := hlive p hmem
        simp only [Bool.not_eq_true', decide_eq_false_iff_not]
        omega)
    have hpost : (get_cache_stats
        (SimpleCacheManager.clear_pattern st pat).2 now).1.keys
          = (dictDel st.cache pat).length := by
      rw [hclear]
      unfold get_cache_stats
      simp only [hc, Bool.not_true, Bool.false_eq_true, if_false]
      simp only [SimpleCacheManager.cleanup_expired, hCdel]
      simpa using congrArg List.length hsub
    rw [hpost, hpre]
    exact dictDel_length st.cache pat hnd e he

/-- Witness for C6: a two-entry store holding `"x"` and `"y"`; clearing
the wildcard-free pattern `"x"` leaves `get("x")` absent and drops the
reported key count from 2 to 1. -/
theorem C6_exact_pattern_clear_witness :
    (SimpleCacheManager.clear_pattern
        ⟨[("x", ⟨.jnum 1, 300, 0⟩), ("y", ⟨.jnum 2, 300, 0⟩)], true⟩ "x").1
      = true ∧
    (SimpleCacheManager.get
        (SimpleCacheManager.clear_pattern
          ⟨[("x", ⟨.jnum 1, 300, 0⟩), ("y", ⟨.jnum 2, 300, 0⟩)], true⟩
          "x").2 "x" 0).1 = .jnull ∧
    (get_cache_stats (SimpleCacheManager.clear_pattern
        ⟨[("x", ⟨.jnum 1, 300, 0⟩), ("y", ⟨.jnum 2, 300, 0⟩)], true⟩
        "x").2 0).1.keys + 1
      = (get_cache_stats
          ⟨[("x", ⟨.jnum 1, 300, 0⟩), ("y", ⟨.jnum 2, 300, 0⟩)], true⟩ 0).1.keys := by
  refine ⟨(C6_exact_pattern_clear
      ⟨[("x", ⟨.jnum 1, 300, 0⟩), ("y", ⟨.jnum 2, 300, 0⟩)], true⟩
      "x" 0 rfl (by decide)).1,
    (C6_exact_pattern_clear
      ⟨[("x", ⟨.jnum 1, 300, 0⟩), ("y", ⟨.jnum 2, 300, 0⟩)], true⟩
      "x" 0 rfl (by decide)).2.2.1 0,
    (C6_exact_pattern_clear
      ⟨[("x", ⟨.jnum 1, 300, 0⟩), ("y", ⟨.jnum 2, 300, 0⟩)], true⟩
      "x" 0 rfl (by decide)).2.2.2 (by decide) (by decide) (by decide)
      ⟨.jnum 1, 300, 0⟩ (by decide)⟩

/-! ### Wrapper path lemmas -/

/-- The operation `get` never changes the connection flag. -/
theorem get_preserves_connected (st : CacheSt) (k : String) (t : Int) :
    (SimpleCacheManager.get st k t).2.connected = st.connected := by
  unfold SimpleCacheManager.get
  by_cases h : st.connected = true
  · rw [h]
    simp only [Bool.not_true, Bool.false_eq_true, if_false]
    cases hd : dictGet st.cache k with
    | none => exact h
    | some e =>
      dsimp only
      by_cases ht : t > e.expires_at
      · rw [if_pos ht]
      · rw [if_neg ht]
        exact h
  · have h' : st.connected = false := by simpa using h
    rw [h']
    simp [h']

/-- A disconnected `get` returns the state unchanged. -/
theorem get_disconnected (st : CacheSt) (k : String) (t : Int)
    (h : st.connected = false) :
    SimpleCacheManager.get st k t = (.jnull, st) := by
  simp [SimpleCacheManager.get, h]

/-- The wrapped call on a cache miss: the operation runs and its result
is stored. -/
theorem wrapper_miss {σ : Type} (pre : String) (expire : Int)
    (digest : String → String) (f : σ → JVal × σ) (argsStr : String)
    (kwargs : List (String × JVal)) (st : CacheSt) (s : σ) (tGet tSet : Int)
    (hmiss : (SimpleCacheManager.get st
      (wrapperKey digest pre argsStr kwargs) tGet).1 = .jnull) :
    cache_response_call pre expire digest f argsStr kwargs st s tGet tSet
      = ((f s).1,
        (SimpleCacheManager.set
          (SimpleCacheManager.get st
            (wrapperKey digest pre argsStr kwargs) tGet).2
          (wrapperKey digest pre argsStr kwargs) (f s).1 expire tSet).2,
        (f s).2) := by
  unfold cache_response_call
  dsimp only
  rw [hmiss]
  simp [jvalBeq]

/-- The wrapped call on a cache hit: the cached value is returned
directly and the operation does not run. -/
theorem wrapper_hit {σ : Type} (pre : String) (expire : Int)
    (digest : String → String) (f : σ → JVal × σ) (argsStr : String)
    (kwargs : List (String × JVal)) (st : CacheSt) (s : σ) (tGet tSet : Int)
    (hhit : (SimpleCacheManager.get st
      (wrapperKey digest pre argsStr kwargs) tGet).1 ≠ .jnull) :
    cache_response_call pre expire digest f argsStr kwargs st s tGet tSet
      = ((SimpleCacheManager.get st
            (wrapperKey digest pre argsStr kwargs) tGet).1,
        (SimpleCacheManager.get st
            (wrapperKey digest pre argsStr kwargs) tGet).2,
        s) := by
  unfold cache_response_call
  have hb : jvalBeq (SimpleCacheManager.get st
      (wrapperKey digest pre argsStr kwargs) tGet).1 .jnull = false := by
    by_cases hb' : jvalBeq (SimpleCacheManager.get st
        (wrapperKey digest pre argsStr kwargs) tGet).1 .jnull = true
    · exact absurd (jvalBeq_eq _ _ hb') hhit
    · simpa using hb'
  dsimp only
  rw [hb]
  simp

/-- After storing `None` under a key, a `get` of that key returns `None`
at every time — a stored `None` is indistinguishable from a miss. -/
theorem get_after_set_null (st' : CacheSt) (key : String)
    (expire t1s t : Int) :
    (SimpleCacheManager.get
      ((SimpleCacheManager.set st' key .jnull expire t1s).2) key t).1
        = .jnull := by
  by_cases hc : st'.connected = true
  · have h2 : (SimpleCacheManager.set st' key .jnull expire t1s).2 =
        { st' with cache := dictSet st'.cache key ⟨.jnull, t1s + expire, t1s⟩ } := by
      simp [SimpleCacheManager.set, hc]
    rw [h2]
    simp only [SimpleCacheManager.get, hc, Bool.not_true, Bool.false_eq_true,
      if_false]
    rw [dictGet_dictSet_self]
    dsimp only
    by_cases ht : t > t1s + expire
    · rw [if_pos ht]
    · rw [if_neg ht]
  · have hc' : st'.connected = false := by simpa using hc
    have h2 : (SimpleCacheManager.set st' key .jnull expire t1s).2 = st' := by
      simp [SimpleCacheManager.set, hc']
    rw [h2, get_disconnected st' key t hc']

/-- C1 counterexample: the claim promises that after a wrapped call
stores its result, a second identical call within the ttl window does not
re-execute the operation.  With an operation returning `None` (counting
its executions in its state), the first call does store `None` in the
cache, yet the second call — same arguments, same instant, ttl 300 —
re-executes the operation: the execution counter reaches 2. -/
theorem C1_counterexample :
    dictGet (cache_response_call "ns" 300 (fun _ => "d")
        (fun n : Nat => (.jnull, n + 1)) "()" [] ⟨[], true⟩ 0 0 0).2.1.cache
        (wrapperKey (fun _ => "d") "ns" "()" [])
      = some ⟨.jnull, 300, 0⟩ ∧
    (cache_response_call "ns" 300 (fun _ => "d")
        (fun n : Nat => (.jnull, n + 1)) "()" [] ⟨[], true⟩ 0 0 0).2.2 = 1 ∧
    (cache_response_call "ns" 300 (fun _ => "d")
        (fun n : Nat => (.jnull, n + 1)) "()" []
        (cache_response_call "ns" 300 (fun _ => "d")
          (fun n : Nat => (.jnull, n + 1)) "()" [] ⟨[], true⟩ 0 0 0).2.1
        (cache_response_call "ns" 300 (fun _ => "d")
          (fun n : Nat => (.jnull, n + 1)) "()" [] ⟨[], true⟩ 0 0 0).2.2
        0 0).2.2 = 2 := by
  refine ⟨by decide, by decide, by decide⟩

/-- C1 (amended): if a wrapped call misses the cache, executes the
operation and stores a NON-`None` result, then a second call with the
identical argument set whose lookup happens within the ttl window
(`t2g ≤ t1s + expire`) returns the same value as the first call, leaves
the cache unchanged and does not re-execute the operation (its state
component is untouched).  (For a `None` result the guarantee fails — see
the C9 claim.) -/
theorem C1_memoize_roundtrip {σ : Type} (pre : String) (expire : Int)
    (digest : String → String) (f : σ → JVal × σ) (argsStr : String)
    (kwargs : List (String × JVal)) (st : CacheSt) (s : σ)
    (t1g t1s t2g t2s : Int)
    (hc : st.connected = true)
    (hmiss : (SimpleCacheManager.get st
      (wrapperKey digest pre argsStr kwargs) t1g).1 = .jnull)
    (hval : (f s).1 ≠ .jnull)
    (hwin : t2g ≤ t1s + expire) :
    cache_response_call pre expire digest f argsStr kwargs st s t1g t1s
      = ((f s).1,
        (cache_response_call pre expire digest f argsStr kwargs
          st s t1g t1s).2.1,
        (f s).2) ∧
    cache_response_call pre expire digest f argsStr kwargs
        (cache_response_call pre expire digest f argsStr kwargs
          st s t1g t1s).2.1
        (cache_response_call pre expire digest f argsStr kwargs
          st s t1g t1s).2.2
        t2g t2s
      = ((f s).1,
        (cache_response_call pre expire digest f argsStr kwargs
          st s t1g t1s).2.1,
        (f s).2) := by
  have hfirst := wrapper_miss pre expire digest f argsStr kwargs st s t1g t1s
    hmiss
  have hc' : (SimpleCacheManager.get st
      (wrapperKey digest pre argsStr kwargs) t1g).2.connected = true := by
    rw [get_preserves_connected]
    exact hc
  have hget2 : SimpleCacheManager.get
      (cache_response_call pre expire digest f argsStr kwargs
        st s t1g t1s).2.1
      (wrapperKey digest pre argsStr kwargs) t2g
        = ((f s).1, (cache_response_call pre expire digest f argsStr kwargs
            st s t1g t1s).2.1) := by
    rw [hfirst]
    exact (get_after_set_spec _ _ (f s).1 expire t1s t2g hc').1 hwin
  constructor
  · rw [hfirst]
  · have hs1 : (cache_response_call pre expire digest f argsStr kwargs
        st s t1g t1s).2.2 = (f s).2 := by
      rw [hfirst]
    rw [hs1]
    rw [wrapper_hit pre expire digest f argsStr kwargs _ _ t2g t2s
      (by rw [hget2]; exact hval)]
    rw [hget2]

/-- Witness for C1: a counting operation returning the non-`None` value
37; two wrapped calls at time 0 with ttl 300; the second call returns 37
and the counter stays at 1. -/
theorem C1_memoize_roundtrip_witness :
    cache_response_call "ns" 300 (fun _ => "d")
        (fun n : Nat => (.jnum 37, n + 1)) "()" []
        (cache_response_call "ns" 300 (fun _ => "d")
          (fun n : Nat => (.jnum 37, n + 1)) "()" [] ⟨[], true⟩ 0 0 0).2.1
        (cache_response_call "ns" 300 (fun _ => "d")
          (fun n : Nat => (.jnum 37, n + 1)) "()" [] ⟨[], true⟩ 0 0 0).2.2
        0 0
      = (.jnum 37,
        (cache_response_call "ns" 300 (fun _ => "d")
          (fun n : Nat => (.jnum 37, n + 1)) "()" [] ⟨[], true⟩ 0 0 0).2.1,
        1) :=
  (C1_memoize_roundtrip "ns" 300 (fun _ => "d")
    (fun n : Nat => (.jnum 37, n + 1)) "()" [] ⟨[], true⟩ 0 0 0 0 0
    rfl (by decide) (by decide) (by decide)).2

/-- C9 (a `None` result never hits): when the wrapped operation returns
`None`, a call that misses the cache executes the operation and stores
`None`; the stored `None` is indistinguishable from a miss, so EVERY
subsequent call with the identical argument set — at any time, within
the ttl window or not — misses again and re-executes the operation. -/
theorem C9_none_never_hits {σ : Type} (pre : String) (expire : Int)
    (digest : String → String) (f : σ → JVal × σ) (argsStr : String)
    (kwargs : List (String × JVal)) (st : CacheSt) (s : σ) (t1g t1s : Int)
    (hmiss : (SimpleCacheManager.get st
      (wrapperKey digest pre argsStr kwargs) t1g).1 = .jnull)
    (hf : ∀ u : σ, (f u).1 = .jnull) :
    (cache_response_call pre expire digest f argsStr kwargs
        st s t1g t1s).2.2 = (f s).2 ∧
    (cache_response_call pre expire digest f argsStr kwargs
        st s t1g t1s).1 = .jnull ∧
    ∀ t2g t2s,
      (cache_response_call pre expire digest f argsStr kwargs
        (cache_response_call pre expire digest f argsStr kwargs
          st s t1g t1s).2.1
        (cache_response_call pre expire digest f argsStr kwargs
          st s t1g t1s).2.2
        t2g t2s).2.2
      = (f (f s).2).2 := by
  have hfirst := wrapper_miss pre expire digest f argsStr kwargs st s t1g t1s
    hmiss
  refine ⟨by rw [hfirst], by rw [hfirst]; exact hf s, ?_⟩
  intro t2g t2s
  have hmiss2 : (SimpleCacheManager.get
      (cache_response_call pre expire digest f argsStr kwargs
        st s t1g t1s).2.1
      (wrapperKey digest pre argsStr kwargs) t2g).1 = .jnull := by
    rw [hfirst]
    dsimp only
    rw [show (f s).1 = JVal.jnull from hf s]
    exact get_after_set_null _ _ expire t1s t2g
  rw [wrapper_miss pre expire digest f argsStr kwargs _ _ t2g t2s hmiss2]
  dsimp only
  rw [show (cache_response_call pre expire digest f argsStr kwargs
    st s t1g t1s).2.2 = (f s).2 from by rw [hfirst]]

/-- Witness for C9: a counting operation that always returns `None`;
after two wrapped calls at arbitrary times the counter reaches 2 — the
operation ran twice despite identical arguments. -/
theorem C9_none_never_hits_witness :
    (cache_response_call "ns" 300 (fun _ => "d")
        (fun n : Nat => (.jnull, n + 1)) "()" []
        (cache_response_call "ns" 300 (fun _ => "d")
          (fun n : Nat => (.jnull, n + 1)) "()" [] ⟨[], true⟩ 0 0 0).2.1
        (cache_response_call "ns" 300 (fun _ => "d")
          (fun n : Nat => (.jnull, n + 1)) "()" [] ⟨[], true⟩ 0 0 0).2.2
        1 1).2.2 = 2 :=
  (C9_none_never_hits "ns" 300 (fun _ => "d")
    (fun n : Nat => (.jnull, n + 1)) "()" [] ⟨[], true⟩ 0 0 0
    (by decide) (fun u => rfl)).2.2 1 1
